import Mathlib

/-!
Verification of the prime-sieve core of the repository
(src/include/boost/math/special_functions/prime_sieve.hpp).

The C++ code is shallowly embedded over `Nat`:

* the template parameter `Integer` is modelled as `Nat` (all reachable
  intermediate values in the claims are non-negative; where the C++ would
  compute a negative signed intermediate such as `upper_bound - lower_bound`
  with `upper_bound < lower_bound`, signed division by the positive interval
  yields `0`, which coincides with truncated `Nat` subtraction followed by
  division, and this is noted at the relevant definition);
* `std::floor(std::sqrt(double(n))) + 1` is modelled as `floorSqrt n + 1`
  (`floorSqrt`, proved equal to `Nat.sqrt`, is the floor of the real square
  root);
* output containers are modelled as the `List Nat` of values they hold;
  a function that appends to a caller-supplied container takes the prior
  contents as an explicit argument and returns the new contents;
* inside `linear_sieve`, `resultant_primes[j]` indexes the already-advanced
  output iterator, i.e. the zero-initialised container slot `j` places past
  the last written prime (or out-of-bounds memory past the resized
  capacity); the read value is modelled as 0 — see `lsInner`;
* the class `boost::math::detail::IntervalSieve` lives in
  `interval_sieve.hpp`, which is not part of the source snapshot; it is
  modelled from the spec (see `intervalSieve` below).

Loops are embedded as structurally recursive functions on an explicit
fuel/counter so that every definition is executable and kernel-reducible.
-/

namespace PrimeSieve

/-- Pointwise update of a table modelled as a function, used for the
`least_divisors` array of `linear_sieve`. -/
def updateFn (f : Nat → Nat) (k v : Nat) : Nat → Nat :=
  fun x => if x = k then v else f x

/-- Linear scan computing the floor square root: `floorSqrtGo n fuel acc`
advances `acc` while `(acc + 1)² ≤ n`. -/
def floorSqrtGo (n : Nat) : Nat → Nat → Nat
  | 0, acc => acc
  | fuel + 1, acc => if (acc + 1) * (acc + 1) ≤ n then floorSqrtGo n fuel (acc + 1) else acc

/-- `⌊√n⌋`, kernel-executable; models `std::floor(std::sqrt(double(n)))`.
Agrees with `Nat.sqrt` (`floorSqrt_eq` below). -/
def floorSqrt (n : Nat) : Nat :=
  floorSqrtGo n n 0


/-- Executable primality test: `2 ≤ n` and no `d` with `2 ≤ d < n` divides
`n`.  Proved equivalent to `Nat.Prime` in `isPrimeB_iff` below; used instead
of `decide Nat.Prime` so that concrete instances evaluate in the kernel. -/
def isPrimeB (n : Nat) : Bool :=
  decide (2 ≤ n) && (List.range' 2 (n - 2)).all fun d => !(decide (d ∣ n))

/-- All primes below `n`, in increasing order: the reference value for the
sieves. -/
def primesBelow (n : Nat) : List Nat :=
  (List.range n).filter isPrimeB

/-- All primes `p` with `lo ≤ p < lo + len`, in increasing order. -/
def primesIn (lo len : Nat) : List Nat :=
  (List.range' lo len).filter isPrimeB

/-!
### linear_sieve (prime_sieve.hpp lines 42-66)

```cpp
auto const first = resultant_primes;
for (Integer i{2}; i < upper_bound; ++i) {
    if (least_divisors[i] == 0) { least_divisors[i] = i; *resultant_primes++ = i; }
    for (Integer j = 0; j < resultant_primes - first
                        && i * resultant_primes[j] <= upper_bound
                        && resultant_primes[j] <= least_divisors[i]
                        && j < least_divisors_size;                     ++j)
        least_divisors[i * resultant_primes[j]] = resultant_primes[j];
}
```

`resultant_primes` is incremented at every prime written (line 53), so by
the time the inner loop runs it points one past the last written prime:
`resultant_primes[j]` is NOT the `j`-th written prime (that would be
`first[j]`) but the container slot `j` places past everything written so
far.  In `linear_sieve_container` the container was resized to
`upper_bound_prime_count(upper_bound)` value-initialised (hence zero)
`Integer`s (line 73), so those reads yield 0 while they stay inside the
resized capacity and are out-of-bounds reads beyond it; the embedding
models every such read as 0.  Consequently the inner loop only ever writes
`least_divisors[i * 0] = 0`, no composite is ever marked, every `i` passes
the `least_divisors[i] == 0` test, and the sieve emits every integer in
`[2, upper_bound)` (`linear_sieve_faithful` below).

The inner loop is `lsInner`; one outer iteration is `lsStep`; `lsIter ub k`
is the state (primes written so far, `least_divisors` table) after the
outer iterations `i = 2, …, 2+k-1`.  `least_divisors_size = upper_bound + 1`
(line 45), hence the `j < ub + 1` conjunct.
-/

/-- Inner marking loop of `linear_sieve`.  `primes.length` is
`resultant_primes - first`, the count of primes written so far.  Each read
of `resultant_primes[j]` (the slot `j` places past the last written prime,
see the section comment) yields 0, so the C++ conjuncts
`i * resultant_primes[j] <= upper_bound` and
`resultant_primes[j] <= least_divisors[i]` become `i * 0 ≤ ub` and
`0 ≤ ld i`, and the write
`least_divisors[i * resultant_primes[j]] = resultant_primes[j]` becomes
`updateFn ld (i * 0) 0`. -/
def lsInner (ub i : Nat) (primes : List Nat) : Nat → Nat → (Nat → Nat) → (Nat → Nat)
  | 0, _, ld => ld
  | fuel + 1, j, ld =>
    if j < primes.length ∧ i * 0 ≤ ub ∧ 0 ≤ ld i ∧ j < ub + 1
    then lsInner ub i primes fuel (j + 1) (updateFn ld (i * 0) 0)
    else ld

/-- One outer iteration of `linear_sieve` at index `i`. -/
def lsStep (ub i : Nat) (s : List Nat × (Nat → Nat)) : List Nat × (Nat → Nat) :=
  let s' := if s.2 i = 0 then (s.1 ++ [i], updateFn s.2 i i) else s
  (s'.1, lsInner ub i s'.1 s'.1.length 0 s'.2)

/-- State of `linear_sieve ub` after the outer iterations `i = 2, …, 2+k-1`:
the primes output so far and the `least_divisors` table (0-initialised,
line 46). -/
def lsIter (ub : Nat) : Nat → List Nat × (Nat → Nat)
  | 0 => ([], fun _ => 0)
  | k + 1 => lsStep ub (2 + k) (lsIter ub k)

/-- `boost::math::detail::linear_sieve` (lines 42-66): the sequence written
through `resultant_primes`.  The outer loop runs for `i = 2, …, ub-1`,
i.e. `ub - 2` iterations. -/
def linear_sieve (ub : Nat) : List Nat :=
  (lsIter ub (ub - 2)).1

/-- `boost::math::detail::linear_sieve_container` (lines 70-77): resizes the
container to `upper_bound_prime_count(ub)` zeroed slots, runs `linear_sieve`
through an iterator from its begin, and truncates to what was written — on a
fresh container the contents are exactly the `linear_sieve` output sequence.
(Because the broken inner loop lets every integer through, the written
sequence exceeds the resized capacity for `ub ≥ 8`; the C++ writes past the
buffer, which is undefined behavior; the embedding takes the value sequence
the writes produce.) -/
def linear_sieve_container (ub : Nat) : List Nat :=
  linear_sieve ub


/-- `boost::math::detail::linear_sieve_limit` (line 81). -/
def linear_sieve_limit : Nat := 4096

/-- `L1_SIZE * 8 = 32768 * 8 = 262144`, the window width of both segmented
sieves (lines 157-158 and 233-234). -/
def segInterval : Nat := 262144

/-- Modelled from the spec: `boost::math::detail::IntervalSieve`
(`interval_sieve.hpp` is not in the source snapshot; only its spec section
4.2 is available).  Constructed with `(lo, hi, base_primes, output)`, it
sieves `[lo, hi)`: for each base prime `p` it clears the bitmask at every
multiple of `p` inside the window starting at
`max(p², first multiple of p ≥ lo)`; if `lo == 1`, position 0 (value 1) is
forced non-prime; surviving positions are emitted in ascending order.
A multiple `x` of `p` lies in the cleared stride iff
`max (p*p) ((lo + p - 1) / p * p) ≤ x` (both stride starting points are
multiples of `p`).  The value returned is the emitted output sequence. -/
def intervalSieve (lo hi : Nat) (base : List Nat) : List Nat :=
  (List.range' lo (hi - lo)).filter fun x =>
    (base.all fun p => !(decide (p ∣ x) && decide (max (p * p) ((lo + p - 1) / p * p) ≤ x)))
      && !(decide (lo = 1) && decide (x = 1))

/-- Loop of `boost::math::detail::sequential_segmented_sieve`
(lines 251-260): `n` remaining `NewRange` calls, `chi` the upper bound of
the window just sieved, `acc` the output container contents.  `base` is the
base-prime set fixed when the `IntervalSieve` was constructed (per the spec,
re-arming via `NewRange` does not reconstruct the base-prime dependency). -/
def seqSegLoop (ub : Nat) (base : List Nat) : Nat → Nat → List Nat → List Nat
  | 0, _, acc => acc
  | n + 1, chi, acc =>
    let clo := chi
    let chi' := min (chi + segInterval) ub
    seqSegLoop ub base n chi' (acc ++ intervalSieve clo chi' base)

/-- `boost::math::detail::sequential_segmented_sieve` (lines 230-261).
The container `primes` is passed to the `IntervalSieve` constructor both as
the base primes and as the output (line 245); the base-prime set is its
contents at construction time.  `ranges = (ub - lo) / interval` (line 243):
for `ub < lo` the C++ signed quotient is `0`, as is the truncated `Nat`
quotient here. -/
def sequential_segmented_sieve (lo ub : Nat) (primes : List Nat) : List Nat :=
  let chi0 := min (lo + segInterval) ub
  let ranges := (ub - lo) / segInterval
  let acc1 := primes ++ intervalSieve lo chi0 primes
  if ranges = 0 then acc1
  else seqSegLoop ub primes ranges chi0 acc1

/-- Windows dispatched by `boost::math::detail::segmented_sieve`
(lines 175-190) after the first one: `n + 1` remaining tasks, the last of
which sieves `[clo', ub)`; intermediate upper bounds are not clamped (they
never exceed `ub` for the values of `n` the function uses). -/
def parSegLoop (ub : Nat) (base : List Nat) : Nat → Nat → List Nat
  | 0, clo => intervalSieve clo ub base
  | n + 1, clo => intervalSieve clo (clo + segInterval) base ++ parSegLoop ub base n (clo + segInterval)

/-- `boost::math::detail::segmented_sieve` taking a base-prime container
(lines 154-204).  Each window is sieved into its own vector indexed by its
position in the partition; after all tasks are joined the vectors are
appended to `resultant` in window order (lines 192-203).  When
`ranges = 0` the dispatch loop body never runs and only the final task
`[lo, ub)` executes. -/
def segmented_sieve (lo ub : Nat) (base resultant : List Nat) : List Nat :=
  let chi0 := min (lo + segInterval) ub
  let ranges := (ub - lo) / segInterval
  resultant ++
    (if ranges = 0 then intervalSieve lo ub base
     else intervalSieve lo chi0 base ++ parSegLoop ub base (ranges - 1) chi0)

/-- `boost::math::detail::segmented_sieve` computing its own base primes
(lines 206-228): base primes up to `limit = ⌊√ub⌋ + 1` via `linear_sieve`
when `limit < linear_sieve_limit`, else via `linear_sieve` up to the limit
followed by a segmented pass appending to the same container; then the main
segmented pass over `[lo, ub)` appending to `resultant`. -/
def segmented_sieveFull (lo ub : Nat) (resultant : List Nat) : List Nat :=
  let limit := floorSqrt ub + 1
  let primes :=
    if limit < linear_sieve_limit then linear_sieve_container limit
    else segmented_sieve linear_sieve_limit limit (linear_sieve_container linear_sieve_limit)
      (linear_sieve_container linear_sieve_limit)
  segmented_sieve lo ub primes resultant

/-- The two execution policies distinguished by `prime_sieve` and
`prime_range` (`typeid(policy) == typeid(std::execution::seq)`, lines 285
and 331). -/
inductive ExecutionPolicy
  | seq
  | par
deriving DecidableEq

/-- `boost::math::prime_sieve` (lines 270-306) on a fresh container.
Sequential branch: `linear_sieve` up to the threshold, then
`sequential_segmented_sieve` over the rest (the container is both base and
output).  Parallel branch: `linear_sieve` up to twice the threshold on one
thread, `segmented_sieve` over `[2 * threshold, ub)` on another, small
primes inserted in front after the join. -/
def prime_sieve (policy : ExecutionPolicy) (ub : Nat) : List Nat :=
  if ub = 2 then []
  else if ub ≤ linear_sieve_limit then linear_sieve_container ub
  else match policy with
    | .seq =>
      sequential_segmented_sieve linear_sieve_limit ub (linear_sieve_container linear_sieve_limit)
    | .par =>
      linear_sieve_container (linear_sieve_limit * 2) ++
        segmented_sieveFull (linear_sieve_limit * 2) ub []

/-- `boost::math::prime_range` (lines 315-414) on a fresh container.  After
the policy-dependent sieving, the result is trimmed from the front while the
values are `< lo` (lines 407-413); the trim is modelled by `dropWhile`
(value semantics of the loop; its out-of-bounds read is modelled separately
by `trimReadsPastEnd`).  When `ub = 2` the function returns before the trim
(lines 321-324). -/
def prime_range (policy : ExecutionPolicy) (lo ub : Nat) : List Nat :=
  let limit := floorSqrt ub + 1
  if ub = 2 then []
  else
    let primes :=
      if ub ≤ linear_sieve_limit then linear_sieve_container ub
      else match policy with
        | .seq =>
          if limit ≤ linear_sieve_limit then
            if lo ≤ limit then
              sequential_segmented_sieve limit ub (linear_sieve_container limit)
            else
              sequential_segmented_sieve lo ub (linear_sieve_container limit)
          else
            sequential_segmented_sieve lo ub
              (sequential_segmented_sieve linear_sieve_limit limit
                (linear_sieve_container linear_sieve_limit))
        | .par =>
          if limit ≤ linear_sieve_limit * 2 then
            if lo ≤ limit then
              linear_sieve_container limit ++ segmented_sieveFull limit ub []
            else
              linear_sieve_container limit ++ segmented_sieveFull lo ub []
          else
            segmented_sieveFull lo ub
              (linear_sieve_container (linear_sieve_limit * 2) ++
                segmented_sieveFull (linear_sieve_limit * 2) limit [])
    primes.dropWhile fun x => decide (x < lo)

/-- The trim loop of `prime_range` (lines 407-411):
`while(*it < lower_bound && it != primes.end()) ++it;`.
Each iteration dereferences `*it` first and only then compares `it` against
`end()`; this function returns `true` exactly when the loop dereferences the
end iterator, i.e. reads one past the last element. -/
def trimReadsPastEnd (primes : List Nat) (lo : Nat) : Bool :=
  match primes with
  | [] => true
  | x :: xs => if x < lo then trimReadsPastEnd xs lo else false

/-!
### mask_sieve (prime_sieve.hpp lines 83-132)
-/

/-- The marking stride of `mask_sieve` (lines 102-106) for one base prime:
positions `j, j + p, j + p + p, …` while `j < ub`, started from
`max(p*p, (lo + p - 1) / p * p)`.  The fuel `ub` bounds the number of steps
(`p ≥ 2` for every base prime actually used). -/
def markList (ub p : Nat) : Nat → Nat → List Nat
  | 0, _ => []
  | fuel + 1, j => if j < ub then j :: markList ub p fuel (j + p) else []

/-- `boost::math::detail::mask_sieve` taking a base-prime container
(lines 83-121).  `base` is the prefix of `primes` below
`limit = ⌊√ub⌋ + 1` (lines 88-94); the bitmask covers
`n = ub - lo + 1` values (line 96); composites are marked below `ub`
(line 103); if `lo == 1` position 0 is forced non-prime (lines 109-112);
the scan emitting survivors runs over `lo ≤ i ≤ ub` inclusive
(lines 114-120). -/
def mask_sieve (lo ub : Nat) (primes : List Nat) : List Nat :=
  let limit := floorSqrt ub + 1
  let base := primes.takeWhile fun p => decide (p < limit)
  let cleared := base.flatMap fun p => markList ub p ub (max (p * p) ((lo + p - 1) / p * p))
  (List.range' lo (ub + 1 - lo)).filter fun x =>
    !(cleared.contains x) && !(decide (lo = 1) && decide (x = lo))

/-- `boost::math::detail::mask_sieve` computing its own base primes
(lines 123-132) via `linear_sieve_container` up to `⌊√ub⌋ + 1`. -/
def mask_sieveFull (lo ub : Nat) : List Nat :=
  mask_sieve lo ub (linear_sieve_container (floorSqrt ub + 1))

/-!
### Proof-side definitions: window decompositions
-/

/-- Concatenation of per-window sieves over the decomposition of a range
given by consecutive cut points `c0, c1, …, ck`: the windows are
`[c0, c1), [c1, c2), …`. -/
def sieveCuts (base : List Nat) : List Nat → List Nat
  | [] => []
  | [_] => []
  | a :: b :: rest => intervalSieve a b base ++ sieveCuts base (b :: rest)

/-- The windows after the first one dispatched by
`boost::math::detail::segmented_sieve` (lines 175-190), as (lower, upper)
pairs; the last window is `[·, ub)`. -/
def segWindowsLoop (ub : Nat) : Nat → Nat → List (Nat × Nat)
  | 0, clo => [(clo, ub)]
  | n + 1, clo => (clo, clo + segInterval) :: segWindowsLoop ub n (clo + segInterval)

/-- The full window partition of `[lo, ub)` used by
`boost::math::detail::segmented_sieve` (lines 159-190). -/
def segWindows (lo ub : Nat) : List (Nat × Nat) :=
  let chi0 := min (lo + segInterval) ub
  let ranges := (ub - lo) / segInterval
  if ranges = 0 then [(lo, ub)] else (lo, chi0) :: segWindowsLoop ub (ranges - 1) chi0


/-!
### Toolkit: primality, reference prime lists, sorted-list utilities
-/

theorem floorSqrtGo_eq (n : Nat) :
    ∀ fuel acc, acc ≤ Nat.sqrt n → Nat.sqrt n ≤ acc + fuel →
      floorSqrtGo n fuel acc = Nat.sqrt n := by
  intro fuel
  induction fuel with
  | zero => intro acc h1 h2; simpa [floorSqrtGo] using Nat.le_antisymm h1 (by simpa using h2)
  | succ fuel ih =>
    intro acc h1 h2
    by_cases h : (acc + 1) * (acc + 1) ≤ n
    · have : acc + 1 ≤ Nat.sqrt n := Nat.le_sqrt.mpr h
      simp only [floorSqrtGo, if_pos h]
      exact ih (acc + 1) this (by omega)
    · have hlt : Nat.sqrt n < acc + 1 := Nat.sqrt_lt.mpr (by omega)
      simp only [floorSqrtGo, if_neg h]
      omega

theorem floorSqrt_eq (n : Nat) : floorSqrt n = Nat.sqrt n :=
  floorSqrtGo_eq n n 0 (Nat.zero_le _) (by simpa using Nat.sqrt_le_self n)

theorem isPrimeB_iff {n : Nat} : isPrimeB n = true ↔ n.Prime := by
  unfold isPrimeB
  simp only [Bool.and_eq_true, decide_eq_true_eq, List.all_eq_true, Bool.not_eq_true',
    decide_eq_false_iff_not, List.mem_range'_1]
  constructor
  · rintro ⟨h2, hall⟩
    rw [Nat.prime_def_lt]
    refine ⟨h2, fun m hm hdvd => ?_⟩
    by_contra hm1
    rcases Nat.lt_or_ge m 2 with hm2 | hm2
    · interval_cases m
      · exact absurd (Nat.eq_zero_of_zero_dvd hdvd) (by omega)
      · exact hm1 rfl
    · exact hall m ⟨hm2, by omega⟩ hdvd
  · intro hp
    refine ⟨hp.two_le, fun d hd hdvd => ?_⟩
    rcases hp.eq_one_or_self_of_dvd d hdvd with h | h <;> omega

theorem mem_primesBelow {x n : Nat} : x ∈ primesBelow n ↔ x < n ∧ x.Prime := by
  simp [primesBelow, List.mem_filter, List.mem_range, isPrimeB_iff]

theorem mem_primesIn {x lo len : Nat} :
    x ∈ primesIn lo len ↔ (lo ≤ x ∧ x < lo + len) ∧ x.Prime := by
  simp [primesIn, List.mem_filter, List.mem_range'_1, isPrimeB_iff]

theorem primesBelow_sorted (n : Nat) : (primesBelow n).Pairwise (· < ·) :=
  (List.pairwise_lt_range n).filter _

theorem primesIn_sorted (lo len : Nat) : (primesIn lo len).Pairwise (· < ·) :=
  (List.pairwise_lt_range' lo len).filter _

theorem primesIn_append (lo a b : Nat) :
    primesIn lo a ++ primesIn (lo + a) b = primesIn lo (a + b) := by
  unfold primesIn
  rw [← List.filter_append]
  rw [Nat.add_comm a b]
  exact congrArg _ (by simpa using List.range'_append lo a b 1)

/-- On a `<`-sorted list, dropping the leading elements `< lo` is filtering
to the elements `≥ lo`. -/
theorem dropWhile_lt_eq_filter_le {lo : Nat} :
    ∀ {l : List Nat}, l.Pairwise (· < ·) →
      l.dropWhile (fun x => decide (x < lo)) = l.filter (fun x => decide (lo ≤ x)) := by
  intro l
  induction l with
  | nil => intro _; rfl
  | cons a l ih =>
    intro hs
    rcases List.pairwise_cons.mp hs with ⟨hab, hl⟩
    by_cases ha : a < lo
    · rw [List.dropWhile_cons_of_pos (by simpa using ha),
        List.filter_cons_of_neg (by simpa using ha), ih hl]
    · rw [List.dropWhile_cons_of_neg (by simpa using ha),
        List.filter_cons_of_pos (by simpa using Nat.le_of_not_lt ha)]
      congr 1
      symm
      rw [List.filter_eq_self]
      intro b hb
      have := hab b hb
      simp only [decide_eq_true_eq]
      omega

/-- `dropWhile` with a predicate that never holds of `a` preserves the
count of `a`. -/
theorem count_dropWhile {p : Nat → Bool} {a : Nat}
    (hp : ∀ x, p x = true → x ≠ a) :
    ∀ l : List Nat, (l.dropWhile p).count a = l.count a := by
  intro l
  induction l with
  | nil => rfl
  | cons b l ih =>
    by_cases hb : p b = true
    · rw [List.dropWhile_cons_of_pos hb, ih, List.count_cons_of_ne (Ne.symm (hp b hb))]
    · rw [List.dropWhile_cons_of_neg hb]

/-- Membership in a `dropWhile` implies membership in the original list. -/
theorem mem_of_mem_dropWhile {p : Nat → Bool} {a : Nat} :
    ∀ {l : List Nat}, a ∈ l.dropWhile p → a ∈ l := by
  intro l
  induction l with
  | nil => intro h; exact h
  | cons b t ih =>
    intro h
    by_cases hb : p b = true
    · rw [List.dropWhile_cons_of_pos hb] at h
      exact List.mem_cons_of_mem _ (ih h)
    · rw [List.dropWhile_cons_of_neg hb] at h
      exact h

/-- `dropWhile` preserves strict sortedness. -/
theorem pairwise_dropWhile {p : Nat → Bool} :
    ∀ {l : List Nat}, l.Pairwise (· < ·) → (l.dropWhile p).Pairwise (· < ·) := by
  intro l
  induction l with
  | nil => intro h; exact h
  | cons a t ih =>
    intro h
    rcases List.pairwise_cons.mp h with ⟨_, ht⟩
    by_cases ha : p a = true
    · rw [List.dropWhile_cons_of_pos ha]
      exact ih ht
    · rw [List.dropWhile_cons_of_neg ha]
      exact h

/-!
### Toolkit: arithmetic of least prime factors
-/

/-- A composite number is at least the square of its least factor, with a
cofactor at least 2 whose least factor is no smaller. -/
theorem minFac_mul_div_self {n : Nat} (h2 : 2 ≤ n) :
    n.minFac * (n / n.minFac) = n :=
  Nat.mul_div_cancel' (Nat.minFac_dvd n)

theorem two_le_div_minFac {n : Nat} (h2 : 2 ≤ n) (hnp : ¬n.Prime) :
    2 ≤ n / n.minFac := by
  have hdvd := Nat.minFac_dvd n
  have hpos : 0 < n / n.minFac := Nat.div_pos (Nat.minFac_le (by omega)) (Nat.minFac_pos n)
  rcases Nat.lt_or_ge (n / n.minFac) 2 with h | h
  · exfalso
    have h1 : n / n.minFac = 1 := by omega
    have : n = n.minFac := by
      conv_lhs => rw [← minFac_mul_div_self h2]
      rw [h1, Nat.mul_one]
    exact hnp (this ▸ Nat.minFac_prime (by omega))
  · exact h

theorem minFac_le_minFac_div {n : Nat} (h2 : 2 ≤ n) (hnp : ¬n.Prime) :
    n.minFac ≤ (n / n.minFac).minFac := by
  have hco := two_le_div_minFac h2 hnp
  have hq : (n / n.minFac).minFac ∣ n :=
    dvd_trans (Nat.minFac_dvd _) (Nat.div_dvd_of_dvd (Nat.minFac_dvd n))
  exact Nat.minFac_le_of_dvd (Nat.minFac_prime (by omega)).two_le hq

theorem minFac_sq_le {n : Nat} (h2 : 2 ≤ n) (hnp : ¬n.Prime) :
    n.minFac * n.minFac ≤ n := by
  have h1 := minFac_le_minFac_div h2 hnp
  have h3 : (n / n.minFac).minFac ≤ n / n.minFac :=
    Nat.minFac_le (by have := two_le_div_minFac h2 hnp; omega)
  calc n.minFac * n.minFac ≤ n.minFac * (n / n.minFac) :=
        Nat.mul_le_mul_left _ (le_trans h1 h3)
    _ = n := minFac_mul_div_self h2

theorem not_prime_mul_self {i p : Nat} (hi : 2 ≤ i) (hp : 2 ≤ p) :
    ¬(i * p).Prime := by
  intro h
  rcases h.eq_one_or_self_of_dvd p (dvd_mul_left p i) with h1 | h1
  · omega
  · have : i * p = 1 * p := by omega
    have : i = 1 := Nat.eq_of_mul_eq_mul_right (by omega) this
    omega

/-!
### What linear_sieve computes

The inner loop only ever writes to cell 0 (it writes `0` to
`least_divisors[i * 0]`), so it never changes a table whose cell 0 holds 0.
Hence the invariant of the outer loop: after `k` iterations the output is
`2, 3, …, 2 + k - 1` (every integer passes the `least_divisors[i] == 0`
test) and the table holds `x` at every visited `x ≥ 2` and 0 elsewhere.
-/

theorem updateFn_same {f : Nat → Nat} {k v : Nat} : updateFn f k v k = v := by
  simp [updateFn]

theorem updateFn_other {f : Nat → Nat} {k v x : Nat} (h : x ≠ k) :
    updateFn f k v x = f x := by
  simp [updateFn, h]

theorem lsStep_fst (ub i : Nat) (s : List Nat × (Nat → Nat)) :
    (lsStep ub i s).1 = if s.2 i = 0 then s.1 ++ [i] else s.1 := by
  unfold lsStep
  by_cases h : s.2 i = 0 <;> simp [h]

theorem lsStep_snd (ub i : Nat) (s : List Nat × (Nat → Nat)) :
    (lsStep ub i s).2 =
      if s.2 i = 0 then
        lsInner ub i (s.1 ++ [i]) (s.1 ++ [i]).length 0 (updateFn s.2 i i)
      else lsInner ub i s.1 s.1.length 0 s.2 := by
  unfold lsStep
  by_cases h : s.2 i = 0 <;> simp [h]

/-- The faithful inner loop is the pointwise identity on any table whose
cell 0 holds 0: its only writes are `least_divisors[i * 0] = 0`. -/
theorem lsInner_apply {ub i : Nat} {primes : List Nat} :
    ∀ (fuel j : Nat) (ld : Nat → Nat), ld 0 = 0 →
      ∀ x, lsInner ub i primes fuel j ld x = ld x := by
  intro fuel
  induction fuel with
  | zero => intro j ld _ x; rfl
  | succ fuel ih =>
    intro j ld h0 x
    by_cases hc : j < primes.length ∧ i * 0 ≤ ub ∧ 0 ≤ ld i ∧ j < ub + 1
    · rw [lsInner, if_pos hc]
      have h0' : updateFn ld (i * 0) 0 0 = 0 := by
        simp [updateFn]
      rw [ih (j + 1) _ h0']
      by_cases hx : x = 0
      · subst hx
        rw [Nat.mul_zero, updateFn_same, h0]
      · rw [Nat.mul_zero, updateFn_other hx]
    · rw [lsInner, if_neg hc]

/-- Invariant of the outer loop of `linear_sieve`: after `k` iterations the
output is every integer in `[2, 2 + k)` and the table holds `x` at every
visited `x` and 0 elsewhere. -/
theorem lsIter_faithful (ub : Nat) :
    ∀ k, (lsIter ub k).1 = List.range' 2 k ∧
      ∀ x, (lsIter ub k).2 x = if 2 ≤ x ∧ x < 2 + k then x else 0 := by
  intro k
  induction k with
  | zero =>
    refine ⟨rfl, fun x => ?_⟩
    show (0 : Nat) = if 2 ≤ x ∧ x < 2 + 0 then x else 0
    rw [if_neg (by omega)]
  | succ k ih =>
    obtain ⟨h1, h2⟩ := ih
    have hz : (lsIter ub k).2 (2 + k) = 0 := by
      rw [h2, if_neg (by omega)]
    have hstep : lsIter ub (k + 1) = lsStep ub (2 + k) (lsIter ub k) := rfl
    constructor
    · rw [hstep, lsStep_fst, if_pos hz, h1]
      have h := List.range'_append 2 k 1 1
      rw [show 1 + k = k + 1 from Nat.add_comm 1 k] at h
      simpa using h
    · intro x
      rw [hstep, lsStep_snd, if_pos hz]
      have h0 : updateFn (lsIter ub k).2 (2 + k) (2 + k) 0 = 0 := by
        rw [updateFn_other (show (0 : Nat) ≠ 2 + k by omega), h2,
          if_neg (by omega)]
      rw [lsInner_apply _ _ _ h0]
      by_cases hx : x = 2 + k
      · subst hx
        rw [updateFn_same, if_pos (by omega)]
      · rw [updateFn_other hx, h2]
        split_ifs <;> omega

/-- What the source's `linear_sieve` actually emits: every integer in
`[2, ub)`, composites included (see the section comment on `lsInner`). -/
theorem linear_sieve_faithful (ub : Nat) :
    linear_sieve ub = List.range' 2 (ub - 2) :=
  (lsIter_faithful ub (ub - 2)).1

theorem linear_sieve_container_faithful (ub : Nat) :
    linear_sieve_container ub = List.range' 2 (ub - 2) :=
  linear_sieve_faithful ub

/-!
### Correctness of the interval sieve windows over the actual base contents

The containers handed to the segmented sieves as base-prime sets hold
`List.range' 2 (L - 2)` — every integer in `[2, L)` — rather than the primes
below `L`.  A window `[lo, hi)` with `L ≤ lo` and `hi ≤ L²` is nevertheless
sieved correctly: a composite base element `b` can only clear multiples of
`b`, never a prime of the window (a prime `x ≥ lo ≥ L > b` has no divisor
`b ∈ [2, L)`), and every composite of the window is cleared by its least
prime factor, which lies in `[2, L)`.
-/

/-- The first multiple of `p` at or after `lo` is at most any multiple of
`p` at or after `lo`. -/
theorem ceil_mul_le {p lo x : Nat} (hp : 1 ≤ p) (hdvd : p ∣ x) (hlo : lo ≤ x) :
    (lo + p - 1) / p * p ≤ x := by
  obtain ⟨d, rfl⟩ := hdvd
  have hd : (lo + p - 1) / p ≤ d := by
    rw [Nat.div_le_iff_le_mul_add_pred (by omega)]
    omega
  calc (lo + p - 1) / p * p ≤ d * p := Nat.mul_le_mul_right p hd
    _ = p * d := Nat.mul_comm d p

theorem mem_intervalSieve_bounds {x lo hi : Nat} {base : List Nat}
    (hx : x ∈ intervalSieve lo hi base) : lo ≤ x ∧ x < hi := by
  unfold intervalSieve at hx
  have := List.mem_range'_1.mp (List.mem_of_mem_filter hx)
  omega

theorem intervalSieve_sorted (lo hi : Nat) (base : List Nat) :
    (intervalSieve lo hi base).Pairwise (· < ·) :=
  (List.pairwise_lt_range' lo (hi - lo)).filter _

theorem mem_range'_two {x L : Nat} (hL : 2 ≤ L) :
    x ∈ List.range' 2 (L - 2) ↔ 2 ≤ x ∧ x < L := by
  rw [List.mem_range'_1]
  omega

/-- Correctness of a single window over the actual container contents: with
base set every integer in `[2, L)` and a window `[lo, hi)` with `L ≤ lo`
and `hi ≤ L²`, the survivors are the primes in `[lo, hi)`. -/
theorem intervalSieve_faithful {lo hi L : Nat} (hL2 : 2 ≤ L) (hLlo : L ≤ lo)
    (hhi : hi ≤ L * L) :
    intervalSieve lo hi (List.range' 2 (L - 2)) = primesIn lo (hi - lo) := by
  unfold intervalSieve primesIn
  apply List.filter_congr
  intro x hx
  have hxb := List.mem_range'_1.mp hx
  have hx2 : 2 ≤ x := by omega
  have hxL : x < L * L := by omega
  rw [show (decide (lo = 1) && decide (x = 1)) = false by
    simp only [Bool.and_eq_false_iff, decide_eq_false_iff_not]; omega]
  rw [Bool.not_false, Bool.and_true]
  by_cases hp : x.Prime
  · rw [isPrimeB_iff.mpr hp, List.all_eq_true]
    intro b hb
    obtain ⟨hb2, hbL⟩ := (mem_range'_two hL2).mp hb
    have hnd : ¬(b ∣ x) := by
      intro hdvd
      rcases hp.eq_one_or_self_of_dvd b hdvd with h1 | h1 <;> omega
    simp [hnd]
  · rw [(Bool.not_eq_true _).mp (fun hb => hp (isPrimeB_iff.mp hb))]
    rw [List.all_eq_false]
    have hq := Nat.minFac_prime (show x ≠ 1 by omega)
    have hsq := minFac_sq_le hx2 hp
    have hqL : x.minFac < L := by nlinarith [hsq]
    refine ⟨x.minFac, (mem_range'_two hL2).mpr ⟨hq.two_le, hqL⟩, ?_⟩
    have hceil : (lo + x.minFac - 1) / x.minFac * x.minFac ≤ x :=
      ceil_mul_le (by have := hq.two_le; omega) (Nat.minFac_dvd x) (by omega)
    simp [Nat.minFac_dvd x, Nat.max_le, hsq, hceil]

/-- Window merging: with any fixed base-prime set, sieving `[lo, mid)` and
`[mid, hi)` separately and concatenating equals sieving `[lo, hi)`, as long
as no window starts below 2. -/
theorem all_congr_mem {f g : Nat → Bool} :
    ∀ {l : List Nat}, (∀ p ∈ l, f p = g p) → l.all f = l.all g := by
  intro l
  induction l with
  | nil => intro _; rfl
  | cons a l ih =>
    intro h
    simp only [List.all_cons]
    rw [h a (List.mem_cons_self a l), ih fun p hp => h p (List.mem_cons_of_mem _ hp)]

theorem intervalSieve_append {lo mid hi : Nat} (base : List Nat)
    (h2 : 2 ≤ lo) (hlm : lo ≤ mid) (hmh : mid ≤ hi) :
    intervalSieve lo mid base ++ intervalSieve mid hi base
      = intervalSieve lo hi base := by
  unfold intervalSieve
  have hsplit : List.range' lo (hi - lo) =
      List.range' lo (mid - lo) ++ List.range' mid (hi - mid) := by
    have h := List.range'_append lo (mid - lo) (hi - mid) 1
    rw [Nat.one_mul, show lo + (mid - lo) = mid by omega] at h
    rw [show hi - lo = hi - mid + (mid - lo) by omega]
    exact h.symm
  rw [hsplit, List.filter_append]
  congr 1
  apply List.filter_congr
  intro x hx
  have hxb := List.mem_range'_1.mp hx
  have hx2 : 2 ≤ x := by omega
  rw [show (decide (lo = 1) && decide (x = 1)) = false by
    simp only [Bool.and_eq_false_iff, decide_eq_false_iff_not]; omega]
  rw [show (decide (mid = 1) && decide (x = 1)) = false by
    simp only [Bool.and_eq_false_iff, decide_eq_false_iff_not]; omega]
  simp only [Bool.not_false, Bool.and_true]
  apply all_congr_mem
  intro p _
  congr 1
  by_cases hdvd : p ∣ x
  · have hp1 : 1 ≤ p := by
      rcases Nat.eq_zero_or_pos p with h | h
      · subst h; exact absurd (Nat.eq_zero_of_zero_dvd hdvd) (by omega)
      · omega
    rw [decide_eq_true hdvd, Bool.true_and, Bool.true_and]
    have hc1 : (lo + p - 1) / p * p ≤ x := ceil_mul_le hp1 hdvd (by omega)
    have hc2 : (mid + p - 1) / p * p ≤ x := ceil_mul_le hp1 hdvd (by omega)
    by_cases hsq : p * p ≤ x
    · rw [decide_eq_true (by omega : max (p * p) ((mid + p - 1) / p * p) ≤ x),
        decide_eq_true (by omega : max (p * p) ((lo + p - 1) / p * p) ≤ x)]
    · rw [decide_eq_false (by omega : ¬max (p * p) ((mid + p - 1) / p * p) ≤ x),
        decide_eq_false (by omega : ¬max (p * p) ((lo + p - 1) / p * p) ≤ x)]
  · rw [decide_eq_false hdvd, Bool.false_and, Bool.false_and]

theorem seqSegLoop_faithful {ub L : Nat} (hL2 : 2 ≤ L) (hub : ub ≤ L * L) :
    ∀ (n chi : Nat) (acc : List Nat), L ≤ chi → chi ≤ ub →
      seqSegLoop ub (List.range' 2 (L - 2)) n chi acc
        = acc ++ primesIn chi (min (chi + n * segInterval) ub - chi) := by
  intro n
  induction n with
  | zero =>
    intro chi acc hL hchi
    have hmin : min (chi + 0 * segInterval) ub = chi := by omega
    rw [hmin, Nat.sub_self]
    simp [seqSegLoop, primesIn, List.range'_zero]
  | succ n ih =>
    intro chi acc hL hchi
    have hI : segInterval = 262144 := rfl
    rw [show seqSegLoop ub (List.range' 2 (L - 2)) (n + 1) chi acc
        = seqSegLoop ub (List.range' 2 (L - 2)) n (min (chi + segInterval) ub)
          (acc ++ intervalSieve chi (min (chi + segInterval) ub)
            (List.range' 2 (L - 2))) from rfl]
    rw [ih (min (chi + segInterval) ub) _ (by omega) (by omega)]
    rw [intervalSieve_faithful hL2 hL (by omega)]
    rw [List.append_assoc]
    congr 1
    have happ := primesIn_append chi (min (chi + segInterval) ub - chi)
      (min (min (chi + segInterval) ub + n * segInterval) ub - min (chi + segInterval) ub)
    rw [show chi + (min (chi + segInterval) ub - chi) = min (chi + segInterval) ub by omega]
      at happ
    rw [happ]
    congr 1
    rw [hI] at *
    omega

theorem sequential_segmented_sieve_faithful {lo ub L : Nat} (hL2 : 2 ≤ L)
    (hLlo : L ≤ lo) (hub : ub ≤ L * L) :
    sequential_segmented_sieve lo ub (List.range' 2 (L - 2))
      = List.range' 2 (L - 2) ++ primesIn lo (ub - lo) := by
  simp only [sequential_segmented_sieve]
  have hI : segInterval = 262144 := rfl
  by_cases hr : (ub - lo) / segInterval = 0
  · rw [if_pos hr]
    have hchi : min (lo + segInterval) ub = ub := by
      rw [hI] at hr ⊢
      omega
    rw [hchi, intervalSieve_faithful hL2 hLlo hub]
  · rw [if_neg hr]
    have hlu : lo + segInterval ≤ ub := by
      rw [hI] at hr ⊢
      omega
    have hchi : min (lo + segInterval) ub = lo + segInterval := by omega
    rw [hchi]
    rw [seqSegLoop_faithful hL2 hub _ _ _ (by omega) (by omega)]
    rw [intervalSieve_faithful hL2 hLlo (by omega)]
    rw [List.append_assoc]
    congr 1
    have happ := primesIn_append lo (lo + segInterval - lo)
      (min (lo + segInterval + (ub - lo) / segInterval * segInterval) ub
        - (lo + segInterval))
    rw [show lo + (lo + segInterval - lo) = lo + segInterval by omega] at happ
    rw [happ]
    have harith : lo + segInterval - lo
        + (min (lo + segInterval + (ub - lo) / segInterval * segInterval) ub
          - (lo + segInterval)) = ub - lo := by
      rw [hI] at hr hlu ⊢
      omega
    rw [harith]

theorem parSegLoop_faithful {ub L : Nat} (hL2 : 2 ≤ L) (hub : ub ≤ L * L) :
    ∀ (n clo : Nat), L ≤ clo → clo + n * segInterval ≤ ub →
      parSegLoop ub (List.range' 2 (L - 2)) n clo = primesIn clo (ub - clo) := by
  intro n
  induction n with
  | zero =>
    intro clo hL hclo
    exact intervalSieve_faithful hL2 hL hub
  | succ n ih =>
    intro clo hL hclo
    have hI : segInterval = 262144 := rfl
    rw [hI] at hclo
    rw [show parSegLoop ub (List.range' 2 (L - 2)) (n + 1) clo
        = intervalSieve clo (clo + segInterval) (List.range' 2 (L - 2))
          ++ parSegLoop ub (List.range' 2 (L - 2)) n (clo + segInterval) from rfl]
    rw [ih (clo + segInterval) (by rw [hI]; omega) (by rw [hI]; omega)]
    rw [intervalSieve_faithful hL2 hL (by rw [hI]; omega)]
    rw [show clo + segInterval - clo = segInterval by omega]
    rw [primesIn_append clo segInterval (ub - (clo + segInterval)),
      show segInterval + (ub - (clo + segInterval)) = ub - clo by rw [hI]; omega]

theorem segmented_sieve_faithful {lo ub L : Nat} (res : List Nat) (hL2 : 2 ≤ L)
    (hLlo : L ≤ lo) (hub : ub ≤ L * L) :
    segmented_sieve lo ub (List.range' 2 (L - 2)) res
      = res ++ primesIn lo (ub - lo) := by
  simp only [segmented_sieve]
  have hI : segInterval = 262144 := rfl
  by_cases hr : (ub - lo) / segInterval = 0
  · rw [if_pos hr, intervalSieve_faithful hL2 hLlo hub]
  · rw [if_neg hr]
    have hlu : lo + segInterval ≤ ub := by
      rw [hI] at hr ⊢
      omega
    have hchi : min (lo + segInterval) ub = lo + segInterval := by omega
    rw [hchi, intervalSieve_faithful hL2 hLlo (by omega)]
    rw [parSegLoop_faithful hL2 hub _ _ (by omega) (by rw [hI] at *; omega)]
    rw [show lo + segInterval - lo = segInterval by omega]
    rw [primesIn_append lo segInterval (ub - (lo + segInterval)),
      show segInterval + (ub - (lo + segInterval)) = ub - lo by rw [hI] at *; omega]

theorem sqrt_16777216 : Nat.sqrt 16777216 = 4096 := by
  rw [show (16777216 : Nat) = 4096 * 4096 by norm_num]
  exact Nat.sqrt_eq 4096

theorem sqrt_le_4095 {ub : Nat} (hub : ub ≤ 16777215) : Nat.sqrt ub ≤ 4095 := by
  by_contra h
  have h1 : 4096 ≤ Nat.sqrt ub := by omega
  have h3 := Nat.sqrt_le ub
  have : 4096 * 4096 ≤ Nat.sqrt ub * Nat.sqrt ub := Nat.mul_le_mul h1 h1
  omega

theorem segmented_sieveFull_faithful {lo ub : Nat} (res : List Nat)
    (h2 : 2 ≤ ub) (hlo : Nat.sqrt ub + 1 ≤ lo) (hub : ub ≤ 16777215) :
    segmented_sieveFull lo ub res = res ++ primesIn lo (ub - lo) := by
  simp only [segmented_sieveFull]
  rw [floorSqrt_eq]
  have hsqle : Nat.sqrt ub ≤ 4095 := sqrt_le_4095 hub
  have hs1 : 1 ≤ Nat.sqrt ub := Nat.le_sqrt.mpr (by omega)
  have hsq1 : ub < (Nat.sqrt ub + 1) * (Nat.sqrt ub + 1) := Nat.lt_succ_sqrt ub
  by_cases hlim : Nat.sqrt ub + 1 < linear_sieve_limit
  · rw [if_pos hlim]
    rw [linear_sieve_container_faithful]
    exact segmented_sieve_faithful res (by omega) hlo (Nat.le_of_lt hsq1)
  · rw [if_neg hlim]
    have hl4096 : Nat.sqrt ub + 1 = 4096 := by
      rw [show linear_sieve_limit = 4096 from rfl] at hlim
      omega
    rw [hl4096] at hlo hsq1 ⊢
    rw [show linear_sieve_limit = 4096 from rfl, linear_sieve_container_faithful]
    rw [@segmented_sieve_faithful 4096 4096 4096 (List.range' 2 (4096 - 2))
      (by norm_num) (le_refl 4096) (by norm_num)]
    rw [show primesIn 4096 (4096 - 4096) = [] from rfl, List.append_nil]
    exact @segmented_sieve_faithful lo ub 4096 res (by norm_num) hlo (by omega)

/-!
### What prime_sieve and prime_range compute
-/

/-- Up to the `linear_sieve_limit` threshold the policy argument of
`prime_sieve` is never consulted. -/
theorem prime_sieve_policy_free {ub : Nat} (hub : ub ≤ 4096)
    (policy : ExecutionPolicy) :
    prime_sieve policy ub = prime_sieve ExecutionPolicy.seq ub := by
  unfold prime_sieve
  by_cases h2 : ub = 2
  · rw [if_pos h2, if_pos h2]
  · rw [if_neg h2, if_neg h2,
      if_pos (show ub ≤ linear_sieve_limit from hub),
      if_pos (show ub ≤ linear_sieve_limit from hub)]

/-- Sequential `prime_sieve` above the threshold: every integer in
`[2, 4096)` followed by the primes in `[4096, ub)` (the windows are sieved
correctly even over the composite-polluted base container). -/
theorem prime_sieve_seq_faithful {ub : Nat} (h4 : 4096 < ub)
    (hub : ub ≤ 16777216) :
    prime_sieve ExecutionPolicy.seq ub
      = List.range' 2 4094 ++ primesIn 4096 (ub - 4096) := by
  unfold prime_sieve
  rw [if_neg (by omega), if_neg (show ¬ub ≤ linear_sieve_limit from by
    rw [show linear_sieve_limit = 4096 from rfl]; omega)]
  show sequential_segmented_sieve linear_sieve_limit ub
    (linear_sieve_container linear_sieve_limit) = _
  rw [show linear_sieve_limit = 4096 from rfl, linear_sieve_container_faithful]
  have h := @sequential_segmented_sieve_faithful 4096 ub 4096 (by norm_num)
    (le_refl 4096) (by omega)
  rw [show (4096 : Nat) - 2 = 4094 from rfl] at h ⊢
  exact h

/-- Parallel `prime_sieve` on `4096 < ub < 8192`: the small-prime thread
runs `linear_sieve(8192)` regardless of `ub` and the segmented thread gets
the empty range `[8192, ub)`, so the output is every integer in
`[2, 8192)`. -/
theorem prime_sieve_par_mid_faithful {ub : Nat} (h1 : 4096 < ub)
    (h2 : ub < 8192) :
    prime_sieve ExecutionPolicy.par ub = List.range' 2 8190 := by
  unfold prime_sieve
  rw [if_neg (by omega), if_neg (show ¬ub ≤ linear_sieve_limit from by
    rw [show linear_sieve_limit = 4096 from rfl]; omega)]
  show linear_sieve_container (linear_sieve_limit * 2)
      ++ segmented_sieveFull (linear_sieve_limit * 2) ub [] = _
  rw [show linear_sieve_limit * 2 = 8192 from rfl, linear_sieve_container_faithful,
    show (8192 : Nat) - 2 = 8190 from rfl]
  have hsq : Nat.sqrt ub ≤ 4095 := sqrt_le_4095 (by omega)
  rw [segmented_sieveFull_faithful [] (by omega) (by omega) (by omega)]
  rw [List.nil_append, show ub - 8192 = 0 by omega,
    show primesIn 8192 0 = [] from rfl, List.append_nil]

/-- Parallel `prime_sieve` on `8192 ≤ ub ≤ 16777215`: every integer in
`[2, 8192)` followed by the primes in `[8192, ub)`. -/
theorem prime_sieve_par_faithful {ub : Nat} (h1 : 8192 ≤ ub)
    (hub : ub ≤ 16777215) :
    prime_sieve ExecutionPolicy.par ub
      = List.range' 2 8190 ++ primesIn 8192 (ub - 8192) := by
  unfold prime_sieve
  rw [if_neg (by omega), if_neg (show ¬ub ≤ linear_sieve_limit from by
    rw [show linear_sieve_limit = 4096 from rfl]; omega)]
  show linear_sieve_container (linear_sieve_limit * 2)
      ++ segmented_sieveFull (linear_sieve_limit * 2) ub [] = _
  rw [show linear_sieve_limit * 2 = 8192 from rfl, linear_sieve_container_faithful,
    show (8192 : Nat) - 2 = 8190 from rfl]
  have hsq : Nat.sqrt ub ≤ 4095 := sqrt_le_4095 hub
  rw [segmented_sieveFull_faithful [] (by omega) (by omega) hub, List.nil_append]

/-- Sequential `prime_range` above the threshold with
`lo ≤ limit = ⌊√ub⌋ + 1 ≤ 4096`: the trim applied to every integer in
`[2, limit)` followed by the primes in `[limit, ub)`. -/
theorem prime_range_seq_mid_faithful {lo ub : Nat} (h4 : 4096 < ub)
    (hub : ub ≤ 16777215) (hlo : lo ≤ Nat.sqrt ub + 1) :
    prime_range ExecutionPolicy.seq lo ub
      = (List.range' 2 (Nat.sqrt ub + 1 - 2)
          ++ primesIn (Nat.sqrt ub + 1) (ub - (Nat.sqrt ub + 1))).dropWhile
            fun x => decide (x < lo) := by
  simp only [prime_range]
  rw [floorSqrt_eq]
  rw [if_neg (show ¬ub = 2 by omega)]
  rw [if_neg (show ¬ub ≤ linear_sieve_limit from by
    rw [show linear_sieve_limit = 4096 from rfl]; omega)]
  have hsqle : Nat.sqrt ub ≤ 4095 := sqrt_le_4095 hub
  rw [if_pos (show Nat.sqrt ub + 1 ≤ linear_sieve_limit from by
    rw [show linear_sieve_limit = 4096 from rfl]; omega)]
  rw [if_pos hlo]
  rw [linear_sieve_container_faithful]
  have hs1 : 1 ≤ Nat.sqrt ub := Nat.le_sqrt.mpr (by omega)
  have hsq1 : ub < (Nat.sqrt ub + 1) * (Nat.sqrt ub + 1) := Nat.lt_succ_sqrt ub
  rw [sequential_segmented_sieve_faithful (by omega) (le_refl _)
    (Nat.le_of_lt hsq1)]

theorem sqrt_10000 : Nat.sqrt 10000 = 100 := by
  rw [show (10000 : Nat) = 100 * 100 by norm_num]
  exact Nat.sqrt_eq 100

theorem not_prime_200 : ¬(200 : Nat).Prime := by
  have h : ¬(100 * 2 : Nat).Prime := not_prime_mul_self (by norm_num) (by norm_num)
  rw [show (100 * 2 : Nat) = 200 by norm_num] at h
  exact h

theorem not_prime_4096 : ¬(4096 : Nat).Prime := by
  have h : ¬(2048 * 2 : Nat).Prime := not_prime_mul_self (by norm_num) (by norm_num)
  rw [show (2048 * 2 : Nat) = 4096 by norm_num] at h
  exact h

/-!
### Ordering and membership bounds, independent of the base-prime contents
-/

theorem parSegLoop_mem_ge {ub : Nat} {base : List Nat} :
    ∀ (n clo x : Nat), x ∈ parSegLoop ub base n clo → clo ≤ x := by
  intro n
  induction n with
  | zero => intro clo x hx; exact (mem_intervalSieve_bounds hx).1
  | succ n ih =>
    intro clo x hx
    rw [show parSegLoop ub base (n + 1) clo
        = intervalSieve clo (clo + segInterval) base
          ++ parSegLoop ub base n (clo + segInterval) from rfl] at hx
    rcases List.mem_append.mp hx with h | h
    · exact (mem_intervalSieve_bounds h).1
    · have := ih (clo + segInterval) x h
      omega

theorem parSegLoop_sorted {ub : Nat} {base : List Nat} :
    ∀ (n clo : Nat), (parSegLoop ub base n clo).Pairwise (· < ·) := by
  intro n
  induction n with
  | zero => intro clo; exact intervalSieve_sorted _ _ _
  | succ n ih =>
    intro clo
    rw [show parSegLoop ub base (n + 1) clo
        = intervalSieve clo (clo + segInterval) base
          ++ parSegLoop ub base n (clo + segInterval) from rfl]
    rw [List.pairwise_append]
    refine ⟨intervalSieve_sorted _ _ _, ih _, ?_⟩
    intro a ha b hb
    have h1 := (mem_intervalSieve_bounds ha).2
    have h2 := parSegLoop_mem_ge n (clo + segInterval) b hb
    omega

theorem segmented_sieve_sorted (lo ub : Nat) (base : List Nat) :
    (segmented_sieve lo ub base []).Pairwise (· < ·) := by
  simp only [segmented_sieve]
  rw [List.nil_append]
  by_cases hr : (ub - lo) / segInterval = 0
  · rw [if_pos hr]
    exact intervalSieve_sorted _ _ _
  · rw [if_neg hr, List.pairwise_append]
    refine ⟨intervalSieve_sorted _ _ _, parSegLoop_sorted _ _, ?_⟩
    intro a ha b hb
    have h1 := (mem_intervalSieve_bounds ha).2
    have h2 := parSegLoop_mem_ge _ _ b hb
    omega

theorem segmented_sieve_mem_ge {lo ub x : Nat} {base : List Nat}
    (hx : x ∈ segmented_sieve lo ub base []) : lo ≤ x := by
  simp only [segmented_sieve] at hx
  rw [List.nil_append] at hx
  by_cases hr : (ub - lo) / segInterval = 0
  · rw [if_pos hr] at hx
    exact (mem_intervalSieve_bounds hx).1
  · rw [if_neg hr] at hx
    have hI : segInterval = 262144 := rfl
    rcases List.mem_append.mp hx with h | h
    · exact (mem_intervalSieve_bounds h).1
    · have := parSegLoop_mem_ge _ _ x h
      rw [hI] at hr this
      omega

theorem segmented_sieveFull_sorted (lo ub : Nat) :
    (segmented_sieveFull lo ub []).Pairwise (· < ·) := by
  simp only [segmented_sieveFull]
  exact segmented_sieve_sorted _ _ _

theorem segmented_sieveFull_mem_ge {lo ub x : Nat}
    (hx : x ∈ segmented_sieveFull lo ub []) : lo ≤ x := by
  simp only [segmented_sieveFull] at hx
  exact segmented_sieve_mem_ge hx

theorem seqSegLoop_sorted {ub : Nat} {base : List Nat} :
    ∀ (n chi : Nat) (acc : List Nat), chi ≤ ub → acc.Pairwise (· < ·) →
      (∀ a ∈ acc, a < chi) → (seqSegLoop ub base n chi acc).Pairwise (· < ·) := by
  intro n
  induction n with
  | zero => intro chi acc _ hs _; exact hs
  | succ n ih =>
    intro chi acc hchi hs hlt
    rw [show seqSegLoop ub base (n + 1) chi acc
        = seqSegLoop ub base n (min (chi + segInterval) ub)
          (acc ++ intervalSieve chi (min (chi + segInterval) ub) base) from rfl]
    apply ih
    · omega
    · rw [List.pairwise_append]
      refine ⟨hs, intervalSieve_sorted _ _ _, ?_⟩
      intro a ha b hb
      have h1 := (mem_intervalSieve_bounds hb).1
      have h2 := hlt a ha
      omega
    · intro a ha
      rcases List.mem_append.mp ha with h | h
      · have := hlt a h
        omega
      · exact (mem_intervalSieve_bounds h).2

theorem sequential_segmented_sieve_sorted {lo ub : Nat} {primes : List Nat}
    (hs : primes.Pairwise (· < ·)) (hlt : ∀ a ∈ primes, a < lo) :
    (sequential_segmented_sieve lo ub primes).Pairwise (· < ·) := by
  simp only [sequential_segmented_sieve]
  have hacc : (primes ++ intervalSieve lo (min (lo + segInterval) ub) primes).Pairwise
      (· < ·) := by
    rw [List.pairwise_append]
    refine ⟨hs, intervalSieve_sorted _ _ _, ?_⟩
    intro a ha b hb
    have h1 := (mem_intervalSieve_bounds hb).1
    have h2 := hlt a ha
    omega
  by_cases hr : (ub - lo) / segInterval = 0
  · rw [if_pos hr]
    exact hacc
  · rw [if_neg hr]
    have hI : segInterval = 262144 := rfl
    have hlu : lo + segInterval ≤ ub := by
      rw [hI] at hr ⊢
      omega
    apply seqSegLoop_sorted _ _ _ (by omega) hacc
    intro a ha
    rcases List.mem_append.mp ha with h | h
    · have := hlt a h
      omega
    · have := (mem_intervalSieve_bounds h).2
      omega

theorem mask_sieve_sorted (lo ub : Nat) (primes : List Nat) :
    (mask_sieve lo ub primes).Pairwise (· < ·) := by
  simp only [mask_sieve]
  exact (List.pairwise_lt_range' _ _).filter _

theorem mask_sieveFull_sorted (lo ub : Nat) :
    (mask_sieveFull lo ub).Pairwise (· < ·) :=
  mask_sieve_sorted lo ub _

theorem prime_sieve_sorted (policy : ExecutionPolicy) (ub : Nat) :
    (prime_sieve policy ub).Pairwise (· < ·) := by
  unfold prime_sieve
  by_cases h2 : ub = 2
  · rw [if_pos h2]
    exact List.Pairwise.nil
  · rw [if_neg h2]
    by_cases hle : ub ≤ linear_sieve_limit
    · rw [if_pos hle, linear_sieve_container_faithful]
      exact List.pairwise_lt_range' _ _
    · rw [if_neg hle]
      cases policy with
      | seq =>
        show (sequential_segmented_sieve linear_sieve_limit ub
          (linear_sieve_container linear_sieve_limit)).Pairwise (· < ·)
        rw [show linear_sieve_limit = 4096 from rfl, linear_sieve_container_faithful]
        apply sequential_segmented_sieve_sorted (List.pairwise_lt_range' _ _)
        intro a ha
        have := List.mem_range'_1.mp ha
        omega
      | par =>
        show (linear_sieve_container (linear_sieve_limit * 2)
          ++ segmented_sieveFull (linear_sieve_limit * 2) ub []).Pairwise (· < ·)
        rw [show linear_sieve_limit * 2 = 8192 from rfl, linear_sieve_container_faithful,
          List.pairwise_append]
        refine ⟨List.pairwise_lt_range' _ _, segmented_sieveFull_sorted _ _, ?_⟩
        intro a ha b hb
        have h1 := List.mem_range'_1.mp ha
        have h3 := segmented_sieveFull_mem_ge hb
        omega

theorem prime_range_sorted (policy : ExecutionPolicy) (lo hi : Nat)
    (hhi : hi ≤ 16777215) : (prime_range policy lo hi).Pairwise (· < ·) := by
  cases policy with
  | seq =>
    simp only [prime_range]
    rw [floorSqrt_eq]
    by_cases h2 : hi = 2
    · rw [if_pos h2]
      exact List.Pairwise.nil
    · rw [if_neg h2]
      apply pairwise_dropWhile
      by_cases hle : hi ≤ linear_sieve_limit
      · rw [if_pos hle, linear_sieve_container_faithful]
        exact List.pairwise_lt_range' _ _
      · rw [if_neg hle]
        rw [show linear_sieve_limit = 4096 from rfl] at hle ⊢
        have h4 : 4096 < hi := by omega
        have hsqle : Nat.sqrt hi ≤ 4095 := sqrt_le_4095 hhi
        have hbase : (List.range' 2 (Nat.sqrt hi + 1 - 2)).Pairwise (· < ·) :=
          List.pairwise_lt_range' _ _
        have hblt : ∀ a ∈ List.range' 2 (Nat.sqrt hi + 1 - 2), a < Nat.sqrt hi + 1 := by
          intro a ha
          have := List.mem_range'_1.mp ha
          omega
        rw [if_pos (show Nat.sqrt hi + 1 ≤ 4096 by omega)]
        by_cases hlo : lo ≤ Nat.sqrt hi + 1
        · rw [if_pos hlo, linear_sieve_container_faithful]
          exact sequential_segmented_sieve_sorted hbase hblt
        · rw [if_neg hlo, linear_sieve_container_faithful]
          apply sequential_segmented_sieve_sorted hbase
          intro a ha
          have := hblt a ha
          omega
  | par =>
    simp only [prime_range]
    rw [floorSqrt_eq]
    by_cases h2 : hi = 2
    · rw [if_pos h2]
      exact List.Pairwise.nil
    · rw [if_neg h2]
      apply pairwise_dropWhile
      by_cases hle : hi ≤ linear_sieve_limit
      · rw [if_pos hle, linear_sieve_container_faithful]
        exact List.pairwise_lt_range' _ _
      · rw [if_neg hle]
        rw [show linear_sieve_limit = 4096 from rfl] at hle ⊢
        have h4 : 4096 < hi := by omega
        have hsqle : Nat.sqrt hi ≤ 4095 := sqrt_le_4095 hhi
        have hbase : (List.range' 2 (Nat.sqrt hi + 1 - 2)).Pairwise (· < ·) :=
          List.pairwise_lt_range' _ _
        have hblt : ∀ a ∈ List.range' 2 (Nat.sqrt hi + 1 - 2), a < Nat.sqrt hi + 1 := by
          intro a ha
          have := List.mem_range'_1.mp ha
          omega
        rw [if_pos (show Nat.sqrt hi + 1 ≤ 4096 * 2 by omega)]
        by_cases hlo : lo ≤ Nat.sqrt hi + 1
        · rw [if_pos hlo, linear_sieve_container_faithful, List.pairwise_append]
          refine ⟨hbase, segmented_sieveFull_sorted _ _, ?_⟩
          intro a ha b hb
          have h1 := hblt a ha
          have h3 := segmented_sieveFull_mem_ge hb
          omega
        · rw [if_neg hlo, linear_sieve_container_faithful, List.pairwise_append]
          refine ⟨hbase, segmented_sieveFull_sorted _ _, ?_⟩
          intro a ha b hb
          have h1 := hblt a ha
          have h3 := segmented_sieveFull_mem_ge hb
          omega

/-!
### Window decompositions (spec section 3, Window invariant)
-/

theorem chain_le_getLast :
    ∀ (l : List Nat) (x hi : Nat), List.Chain' (· ≤ ·) (x :: l) →
      (x :: l).getLast? = some hi → x ≤ hi := by
  intro l
  induction l with
  | nil =>
    intro x hi _ hlast
    simp only [List.getLast?_singleton, Option.some_inj] at hlast
    omega
  | cons b l ih =>
    intro x hi hchain hlast
    have h1 : x ≤ b := (List.chain'_cons.mp hchain).1
    have h2 := ih b hi (List.chain'_cons.mp hchain).2
      (by rw [← hlast]; exact (List.getLast?_cons_cons).symm)
    omega

/-- Decomposition invariance: sieving the windows of any chain of cut
points from `lo` to `hi` (all at least 2) with one base-prime set, in
order, gives the monolithic sieve of `[lo, hi)`. -/
theorem sieveCuts_eq {base : List Nat} :
    ∀ (cuts : List Nat) (lo hi : Nat), 2 ≤ lo →
      List.Chain' (· ≤ ·) cuts → cuts.head? = some lo →
      cuts.getLast? = some hi →
      sieveCuts base cuts = intervalSieve lo hi base := by
  intro cuts
  induction cuts with
  | nil => intro lo hi _ _ hhead _; exact absurd hhead (by simp)
  | cons a tail ih =>
    intro lo hi h2 hchain hhead hlast
    have ha : a = lo := by simpa using hhead
    subst ha
    cases tail with
    | nil =>
      have : a = hi := by simpa using hlast
      subst this
      show ([] : List Nat) = intervalSieve a a base
      unfold intervalSieve
      rw [Nat.sub_self, List.range'_zero]
      rfl
    | cons b rest =>
      have hab : a ≤ b := (List.chain'_cons.mp hchain).1
      have hchain2 : List.Chain' (· ≤ ·) (b :: rest) := (List.chain'_cons.mp hchain).2
      have hlast2 : (b :: rest).getLast? = some hi := by
        rw [← hlast]; exact (List.getLast?_cons_cons).symm
      have hbh : b ≤ hi := chain_le_getLast rest b hi hchain2 hlast2
      show intervalSieve a b base ++ sieveCuts base (b :: rest) = _
      rw [ih b hi (by omega) hchain2 (by simp) hlast2]
      exact intervalSieve_append base h2 hab hbh

theorem parSegLoop_windows {ub : Nat} {base : List Nat} :
    ∀ (n clo : Nat), parSegLoop ub base n clo
      = ((segWindowsLoop ub n clo).map fun w => intervalSieve w.1 w.2 base).flatten := by
  intro n
  induction n with
  | zero =>
    intro clo
    show intervalSieve clo ub base = _
    simp [segWindowsLoop]
  | succ n ih =>
    intro clo
    show intervalSieve clo (clo + segInterval) base
      ++ parSegLoop ub base n (clo + segInterval) = _
    rw [ih]
    simp [segWindowsLoop]

/-- `segmented_sieve` appends to `resultant` exactly the concatenation, in
window order, of the per-window `IntervalSieve` outputs over its partition
of `[lo, ub)`. -/
theorem segmented_sieve_windows (lo ub : Nat) (base res : List Nat) :
    segmented_sieve lo ub base res
      = res ++ ((segWindows lo ub).map fun w => intervalSieve w.1 w.2 base).flatten := by
  simp only [segmented_sieve, segWindows]
  by_cases hr : (ub - lo) / segInterval = 0
  · rw [if_pos hr, if_pos hr]
    simp
  · rw [if_neg hr, if_neg hr]
    rw [parSegLoop_windows]
    simp

theorem seqSegLoop_count_ge {ub : Nat} {base : List Nat} {a : Nat} :
    ∀ (n chi : Nat) (acc : List Nat),
      acc.count a ≤ (seqSegLoop ub base n chi acc).count a := by
  intro n
  induction n with
  | zero => intro chi acc; exact le_refl _
  | succ n ih =>
    intro chi acc
    rw [show seqSegLoop ub base (n + 1) chi acc
        = seqSegLoop ub base n (min (chi + segInterval) ub)
          (acc ++ intervalSieve chi (min (chi + segInterval) ub) base) from rfl]
    calc acc.count a
        ≤ (acc ++ intervalSieve chi (min (chi + segInterval) ub) base).count a := by
          rw [List.count_append]
          omega
      _ ≤ _ := ih _ _

/-!
### The duplicated-output run of prime_range at upper bound 4096²

At `ub = 16777216` the limit `⌊√ub⌋ + 1 = 4097` exceeds 4096, so the
sequential branch of `prime_range` runs a third sieving pass over
`[lo, ub)` even though the container already holds the output of the two
base passes: with `lo = 2` the value 2 is emitted twice.
-/

theorem seqseg_4096_4097 :
    sequential_segmented_sieve 4096 4097 (List.range' 2 4094)
      = List.range' 2 4094 := by
  have h := @sequential_segmented_sieve_faithful 4096 4097 4096 (by norm_num)
    (le_refl 4096) (by norm_num)
  rw [show (4096 : Nat) - 2 = 4094 from rfl] at h
  rw [h, show (4097 : Nat) - 4096 = 1 from rfl,
    show primesIn 4096 1 = [] from by decide, List.append_nil]

theorem two_mem_win0 :
    2 ∈ intervalSieve 2 (min (2 + segInterval) 16777216) (List.range' 2 4094) := by
  unfold intervalSieve
  rw [List.mem_filter]
  refine ⟨?_, ?_⟩
  · rw [List.mem_range'_1]
    refine ⟨le_refl 2, ?_⟩
    rw [show min (2 + segInterval) 16777216 = 262146 from rfl]
    norm_num
  · rw [Bool.and_eq_true]
    refine ⟨?_, by decide⟩
    rw [List.all_eq_true]
    intro b hb
    have hbb := List.mem_range'_1.mp hb
    by_cases hdvd : b ∣ 2
    · have hb2 : b = 2 := by
        have := Nat.le_of_dvd (by norm_num) hdvd
        omega
      subst hb2
      decide
    · simp [hdvd]

theorem prime_range_seq_dup_two :
    2 ≤ (prime_range ExecutionPolicy.seq 2 16777216).count 2 := by
  simp only [prime_range]
  rw [floorSqrt_eq, sqrt_16777216]
  rw [if_neg (by norm_num : ¬(16777216 : Nat) = 2)]
  rw [if_neg (show ¬(16777216 : Nat) ≤ linear_sieve_limit from by
    rw [show linear_sieve_limit = 4096 from rfl]; norm_num)]
  rw [if_neg (show ¬(4096 + 1 : Nat) ≤ linear_sieve_limit from by
    rw [show linear_sieve_limit = 4096 from rfl]; norm_num)]
  rw [show linear_sieve_limit = 4096 from rfl]
  rw [linear_sieve_container_faithful, show (4096 : Nat) - 2 = 4094 from rfl]
  rw [show (4096 + 1 : Nat) = 4097 from rfl, seqseg_4096_4097]
  rw [count_dropWhile (by intro x hx; simp only [decide_eq_true_eq] at hx; omega)]
  simp only [sequential_segmented_sieve]
  rw [if_neg (show ¬(16777216 - 2) / segInterval = 0 from by decide)]
  calc (2 : Nat)
      ≤ (List.range' 2 4094
          ++ intervalSieve 2 (min (2 + segInterval) 16777216)
            (List.range' 2 4094)).count 2 := by
        rw [List.count_append]
        have h1 : 0 < (List.range' 2 4094).count 2 :=
          List.count_pos_iff.mpr (List.mem_range'_1.mpr ⟨le_refl 2, by norm_num⟩)
        have h2 : 0 < (intervalSieve 2 (min (2 + segInterval) 16777216)
            (List.range' 2 4094)).count 2 :=
          List.count_pos_iff.mpr two_mem_win0
        omega
    _ ≤ _ := seqSegLoop_count_ge _ _ _

/-!
### The claims
-/

/-- C1: the claim that `linear_sieve n` returns exactly the primes in
`[2, n)` is false of the source: the inner marking loop reads
`resultant_primes[j]` off the already-advanced output iterator (zeros), so
no composite is ever marked and the sieve emits every integer in `[2, n)` —
for `n = 10` the sequence `[2, 3, 4, 5, 6, 7, 8, 9]`, which contains the
composite 4. -/
theorem C1_linear_sieve_not_primes :
    (∀ n : Nat, linear_sieve n = List.range' 2 (n - 2)) ∧
    linear_sieve 10 = [2, 3, 4, 5, 6, 7, 8, 9] ∧
    4 ∈ linear_sieve 10 ∧ ¬(4 : Nat).Prime := by
  refine ⟨linear_sieve_faithful, by decide, by decide, ?_⟩
  intro hp
  exact absurd (isPrimeB_iff.mpr hp) (by decide)

/-- C2 counterexample: with the sequential policy, `prime_range(2, 10000)`
is not `prime_sieve(10000)` filtered to values `≥ 2`: the filtered
`prime_sieve` output contains the composite 200 (its `linear_sieve` pass
fills the container with every integer in `[2, 4096)`), while
`prime_range`'s base pass stops at `limit = ⌊√10000⌋ + 1 = 101`, so 200 is
absent from its output. -/
theorem C2_counterexample :
    ¬(prime_range ExecutionPolicy.seq 2 10000
      = (prime_sieve ExecutionPolicy.seq 10000).filter fun x => decide (2 ≤ x)) := by
  intro heq
  have h200 : (200 : Nat) ∈ (prime_sieve ExecutionPolicy.seq 10000).filter
      fun x => decide (2 ≤ x) := by
    rw [prime_sieve_seq_faithful (by norm_num) (by norm_num)]
    exact List.mem_filter.mpr ⟨List.mem_append_left _
      (List.mem_range'_1.mpr ⟨by norm_num, by norm_num⟩), by decide⟩
  rw [← heq, prime_range_seq_mid_faithful (by norm_num) (by norm_num)
    (by rw [sqrt_10000]; norm_num), sqrt_10000] at h200
  have h200' := mem_of_mem_dropWhile h200
  rcases List.mem_append.mp h200' with h | h
  · have := List.mem_range'_1.mp h
    omega
  · exact not_prime_200 (mem_primesIn.mp h).2

/-- C2 amended: the identity `prime_range(lo, hi) = prime_sieve(hi)`
filtered to values `≥ lo` holds for every `hi ≤ 4096` under both policies
(there both functions run the same `linear_sieve` branch, and on its sorted
output trimming the leading values below `lo` equals filtering).  Above the
threshold it fails (see the counterexample). -/
theorem C2_range_eq_sieve_filtered (policy : ExecutionPolicy) (lo hi : Nat)
    (hhi : hi ≤ 4096) :
    prime_range policy lo hi
      = (prime_sieve policy hi).filter fun x => decide (lo ≤ x) := by
  by_cases h2 : hi = 2
  · subst h2
    have hr : prime_range policy lo 2 = [] := by
      simp [prime_range]
    have hs : prime_sieve policy 2 = [] := by
      simp [prime_sieve]
    rw [hr, hs]
    rfl
  · have hr : prime_range policy lo hi
        = (List.range' 2 (hi - 2)).dropWhile fun x => decide (x < lo) := by
      simp only [prime_range]
      rw [if_neg h2, if_pos (show hi ≤ linear_sieve_limit from hhi),
        linear_sieve_container_faithful]
    have hs : prime_sieve policy hi = List.range' 2 (hi - 2) := by
      simp only [prime_sieve]
      rw [if_neg h2, if_pos (show hi ≤ linear_sieve_limit from hhi),
        linear_sieve_container_faithful]
    rw [hr, hs, dropWhile_lt_eq_filter_le (List.pairwise_lt_range' _ _)]

theorem C2_witness :
    (100 : Nat) ≤ 4096 ∧
    prime_range ExecutionPolicy.seq 3 100
      = (prime_sieve ExecutionPolicy.seq 100).filter fun x => decide (3 ≤ x) :=
  ⟨by norm_num, C2_range_eq_sieve_filtered ExecutionPolicy.seq 3 100 (by norm_num)⟩

/-- C3 counterexample: at `upper_bound = 4097` the parallel and sequential
branches of `prime_sieve` differ — the parallel branch returns every
integer in `[2, 8192)` (its small-prime thread always runs
`linear_sieve(2 * linear_sieve_limit)` while the segmented thread receives
the empty range `[8192, 4097)`), e.g. 4096, which the sequential branch
never emits (its prefix stops below 4096 and its windows emit only
primes). -/
theorem C3_counterexample :
    ¬(prime_sieve ExecutionPolicy.par 4097 = prime_sieve ExecutionPolicy.seq 4097) := by
  intro heq
  have hmem : (4096 : Nat) ∈ prime_sieve ExecutionPolicy.par 4097 := by
    rw [prime_sieve_par_mid_faithful (by norm_num) (by norm_num)]
    exact List.mem_range'_1.mpr ⟨by norm_num, by norm_num⟩
  rw [heq, prime_sieve_seq_faithful (by norm_num) (by norm_num)] at hmem
  rcases List.mem_append.mp hmem with h | h
  · have := List.mem_range'_1.mp h
    omega
  · exact not_prime_4096 (mem_primesIn.mp h).2

/-- C3 amended: the parallel-branch and sequential-branch functions of
`prime_sieve` agree for every `upper_bound ≤ 4096` (the dispatch is
policy-independent there), and provably differ for every
`4096 < upper_bound ≤ 16777215`: the parallel output always contains the
composite 4096 (from its `linear_sieve(8192)` small-prime thread), the
sequential output never does. -/
theorem C3_par_eq_seq (ub : Nat) :
    (ub ≤ 4096 → prime_sieve ExecutionPolicy.par ub = prime_sieve ExecutionPolicy.seq ub) ∧
    (4096 < ub → ub ≤ 16777215 →
      prime_sieve ExecutionPolicy.par ub ≠ prime_sieve ExecutionPolicy.seq ub) := by
  constructor
  · intro h
    exact prime_sieve_policy_free h _
  · intro h1 h2 heq
    have hmem : (4096 : Nat) ∈ prime_sieve ExecutionPolicy.par ub := by
      rcases Nat.lt_or_ge ub 8192 with h | h
      · rw [prime_sieve_par_mid_faithful h1 h]
        exact List.mem_range'_1.mpr ⟨by norm_num, by norm_num⟩
      · rw [prime_sieve_par_faithful h h2]
        exact List.mem_append_left _ (List.mem_range'_1.mpr ⟨by norm_num, by norm_num⟩)
    rw [heq, prime_sieve_seq_faithful h1 (by omega)] at hmem
    rcases List.mem_append.mp hmem with h | h
    · have := List.mem_range'_1.mp h
      omega
    · exact not_prime_4096 (mem_primesIn.mp h).2

theorem C3_witness :
    ((100 : Nat) ≤ 4096 ∧
      prime_sieve ExecutionPolicy.par 100 = prime_sieve ExecutionPolicy.seq 100) ∧
    (4096 < 4098 ∧ (4098 : Nat) ≤ 16777215 ∧
      prime_sieve ExecutionPolicy.par 4098 ≠ prime_sieve ExecutionPolicy.seq 4098) :=
  ⟨⟨by norm_num, (C3_par_eq_seq 100).1 (by norm_num)⟩,
   ⟨by norm_num, by norm_num, (C3_par_eq_seq 4098).2 (by norm_num) (by norm_num)⟩⟩

/-- C4: evaluation of the explicit base-prime overload of `mask_sieve` at
the failing input `(lo, hi) = (2, 10)` with base primes `[2, 3]` — exactly
the primes below the limit `⌊√10⌋ + 1 = 4` that the container overload
would be meant to supply.  The claim says `mask_sieve(lo, hi)` emits
exactly the primes of `[lo, hi)` and never includes `hi`; the code marks
composites only strictly below `upper_bound` (line 103) but its extraction
loop runs up to and including `upper_bound` (line 114) over a bitmask of
size `hi - lo + 1` (line 96), so the composite `hi = 10` is emitted. -/
theorem C4_mask_sieve_includes_hi :
    primesBelow (floorSqrt 10 + 1) = [2, 3] ∧
    mask_sieve 2 10 [2, 3] = [2, 3, 5, 7, 10] := by
  exact ⟨by decide, by decide⟩

/-- C5 counterexample: the output of `prime_range` with the sequential
policy at `(lo, hi) = (2, 16777216)` is not strictly increasing: the limit
`⌊√hi⌋ + 1 = 4097` exceeds `linear_sieve_limit`, so after the two base
passes fill the container the code sieves all of `[2, hi)` again into the
same container (line 352), emitting the value 2 a second time (the trim at
`lo = 2` removes nothing). -/
theorem C5_counterexample :
    ¬(prime_range ExecutionPolicy.seq 2 16777216).Pairwise (· < ·) := by
  intro hsort
  have hnodup : (prime_range ExecutionPolicy.seq 2 16777216).Nodup :=
    hsort.imp Nat.ne_of_lt
  have hle1 := List.nodup_iff_count_le_one.mp hnodup 2
  have hge2 := prime_range_seq_dup_two
  omega

/-- C5 amended: into a fresh output container, `linear_sieve`,
`mask_sieve`, `segmented_sieve` and `prime_sieve` (either policy) always
produce strictly increasing sequences, and `prime_range` (either policy)
does so whenever `hi ≤ 16777215`; at `hi = 16777216` the sequential
`prime_range` output repeats the value 2 (see the counterexample). -/
theorem C5_outputs_strictly_increasing :
    (∀ ub : Nat, (linear_sieve ub).Pairwise (· < ·)) ∧
    (∀ lo hi : Nat, (mask_sieveFull lo hi).Pairwise (· < ·)) ∧
    (∀ lo hi : Nat, (segmented_sieveFull lo hi []).Pairwise (· < ·)) ∧
    (∀ (policy : ExecutionPolicy) (ub : Nat),
      (prime_sieve policy ub).Pairwise (· < ·)) ∧
    (∀ (policy : ExecutionPolicy) (lo hi : Nat), hi ≤ 16777215 →
      (prime_range policy lo hi).Pairwise (· < ·)) := by
  refine ⟨?_, mask_sieveFull_sorted, ?_, prime_sieve_sorted, prime_range_sorted⟩
  · intro ub
    rw [linear_sieve_faithful]
    exact List.pairwise_lt_range' _ _
  · intro lo hi
    exact segmented_sieveFull_sorted lo hi

theorem C5_witness :
    (prime_range ExecutionPolicy.seq 5 100).Pairwise (· < ·) :=
  C5_outputs_strictly_increasing.2.2.2.2 ExecutionPolicy.seq 5 100 (by norm_num)

/-- C6 counterexample: the decomposition of `[0, 3)` into the windows
`[0, 1)` and `[1, 3)` with base primes `[2]` does not reproduce the
monolithic sieve of `[0, 3)`: the window starting at 1 triggers the
`lo == 1` special case and drops the value 1, which the monolithic sieve
(starting at 0) emits. -/
theorem C6_counterexample :
    List.Chain' (· ≤ ·) [0, 1, 3] ∧ ([0, 1, 3] : List Nat).head? = some 0 ∧
    ([0, 1, 3] : List Nat).getLast? = some 3 ∧
    sieveCuts [2] [0, 1, 3] ≠ intervalSieve 0 3 [2] := by
  refine ⟨by simp [List.chain'_cons], by decide, by decide, by decide⟩

/-- C6 amended: for any decomposition of `[lo, hi)` with `lo ≥ 2` into
contiguous windows given by a chain of cut points, sieving each window with
the same base-prime set and concatenating in window order equals the
monolithic sieve of `[lo, hi)`; and `segmented_sieve(lo, hi)` appends
exactly the concatenation of the `IntervalSieve` outputs of its consecutive
windows in range order.  (For `lo < 2` the `lo == 1` special case of
`IntervalSieve` breaks decompositions that cut at 1, see the
counterexample.) -/
theorem C6_partition_invariance :
    (∀ (base cuts : List Nat) (lo hi : Nat), 2 ≤ lo →
      List.Chain' (· ≤ ·) cuts → cuts.head? = some lo →
      cuts.getLast? = some hi →
      sieveCuts base cuts = intervalSieve lo hi base) ∧
    (∀ (lo ub : Nat) (base res : List Nat),
      segmented_sieve lo ub base res
        = res ++ ((segWindows lo ub).map fun w => intervalSieve w.1 w.2 base).flatten) :=
  ⟨fun base => sieveCuts_eq, segmented_sieve_windows⟩

theorem C6_witness :
    2 ≤ 2 ∧ List.Chain' (· ≤ ·) [2, 5, 9] ∧
    ([2, 5, 9] : List Nat).head? = some 2 ∧
    ([2, 5, 9] : List Nat).getLast? = some 9 ∧
    sieveCuts [2, 3] [2, 5, 9] = intervalSieve 2 9 [2, 3] :=
  ⟨by norm_num, by simp [List.chain'_cons], by decide, by decide,
    C6_partition_invariance.1 [2, 3] [2, 5, 9] 2 9 (by norm_num)
      (by simp [List.chain'_cons]) (by decide) (by decide)⟩

set_option maxRecDepth 40000 in
/-- C7: of the four claimed boundary cases, `prime_sieve(2) = []` and
`prime_sieve(3) = [2]` hold, but `linear_sieve(10)` is
`[2, 3, 4, 5, 6, 7, 8, 9]` — every integer in `[2, 10)` — instead of the
claimed `[2, 3, 5, 7]`, and `prime_range(10, 30)` is every integer in
`[10, 30)` instead of the claimed `[11, 13, 17, 19, 23, 29]` (sequential
policy, the default of the policy-less overloads). -/
theorem C7_boundary_cases_fail :
    prime_sieve ExecutionPolicy.seq 2 = [] ∧
    prime_sieve ExecutionPolicy.seq 3 = [2] ∧
    linear_sieve 10 ≠ [2, 3, 5, 7] ∧
    linear_sieve 10 = [2, 3, 4, 5, 6, 7, 8, 9] ∧
    prime_range ExecutionPolicy.seq 10 30 ≠ [11, 13, 17, 19, 23, 29] ∧
    prime_range ExecutionPolicy.seq 10 30 = List.range' 10 20 := by
  refine ⟨by decide, by decide, by decide, by decide, by decide, by decide⟩

/-- C8 counterexample: the entry points do not fail fast on an invalid
range; `prime_range(5, 2)` (with `hi = 2 < lo = 5`) silently returns the
empty sequence under both policies instead of rejecting the call — there is
no check of `hi ≥ lo` anywhere in `prime_range`. -/
theorem C8_counterexample :
    prime_range ExecutionPolicy.seq 5 2 = [] ∧
    prime_range ExecutionPolicy.par 5 2 = [] := by
  decide

/-- C8 amended: invalid ranges are not rejected: for every `hi < lo` with
`hi ≤ 4096`, `prime_range` silently returns the empty sequence under both
policies — the container is filled with values below `hi < lo` and the trim
removes them all; no error path exists in the code for any input. -/
theorem C8_invalid_range_silently_empty (policy : ExecutionPolicy) (lo hi : Nat)
    (hinv : hi < lo) (hhi : hi ≤ 4096) :
    prime_range policy lo hi = [] := by
  by_cases h2 : hi = 2
  · subst h2
    simp [prime_range]
  · simp only [prime_range]
    rw [if_neg h2, if_pos (show hi ≤ linear_sieve_limit from hhi),
      linear_sieve_container_faithful]
    rw [List.dropWhile_eq_nil_iff]
    intro x hx
    have := List.mem_range'_1.mp hx
    simp only [decide_eq_true_eq]
    omega

theorem C8_witness :
    3 < 9 ∧ (3 : Nat) ≤ 4096 ∧
    prime_range ExecutionPolicy.seq 9 3 = [] ∧
    prime_range ExecutionPolicy.par 9 3 = [] :=
  ⟨by norm_num, by norm_num,
    C8_invalid_range_silently_empty ExecutionPolicy.seq 9 3 (by norm_num) (by norm_num),
    C8_invalid_range_silently_empty ExecutionPolicy.par 9 3 (by norm_num) (by norm_num)⟩

/-- C9: the claimed `least_divisors` invariant is false of the source.
Every inner-loop write goes to `least_divisors[i * 0] = 0` (the loop reads
the advanced output iterator, hence 0), so no composite is ever assigned
its least prime factor; instead every visited value `c` — prime or
composite — passes the `least_divisors[c] == 0` test and receives
`least_divisors[c] = c`.  The proved characterization: at the start of
outer iteration `2 + k` the table holds `x` at every visited `x ≥ 2` and 0
elsewhere; concretely, before iteration 5 of `linear_sieve 10` the
composite 4 holds 4, not its smallest prime factor 2. -/
theorem C9_least_divisors_invariant_fails :
    (∀ ub k x : Nat, (lsIter ub k).2 x = if 2 ≤ x ∧ x < 2 + k then x else 0) ∧
    (lsIter 10 3).2 4 = 4 ∧
    Nat.minFac 4 = 2 := by
  refine ⟨fun ub k x => (lsIter_faithful ub k).2 x, by decide, by decide⟩

/-- C10: the trim loop of `prime_range` (line 408,
`while(*it < lower_bound && it != primes.end())`) dereferences `*it`
before comparing against `end()`.  At `prime_range(3, 3)` the computed
sequence is `linear_sieve_container 3 = [2]`, its only entry is below
`lo = 3`, and the loop reads one element past the end.  At the claim's own
example `prime_range(8, 10)` the source's container holds
`[2, 3, 4, 5, 6, 7, 8, 9]` (the broken linear sieve emits every integer),
so the scan stops at the entry 8 and no out-of-bounds read occurs there —
but the unsafe evaluation order is real and fires whenever every stored
entry is below `lower_bound`. -/
theorem C10_trim_reads_past_end :
    trimReadsPastEnd (linear_sieve_container 3) 3 = true ∧
    trimReadsPastEnd (linear_sieve_container 10) 8 = false := by
  refine ⟨by decide, by decide⟩

end PrimeSieve
